import Mathlib

/-!
# Verification of the rustorrent metadata parser

Shallow embedding of `src/parser` (torrent-metadata schema resolution, file
enumeration, magnet-URI parsing and info-hash normalization) together with
proofs about the embedded definitions.

Modelling conventions:
* Bencode byte strings and Rust `String`s are both modelled as `List Char`
  (bencode has a single string type; UTF-8 validity of text fields is
  abstracted away, which no claim here depends on).
* Rust `u64`/`u8` deserialization from a bencode integer is modelled as a
  non-negativity (and range) check on `Int`, matching serde's rejection of
  negative or out-of-range integers.
* serde's `#[serde(untagged)]` enums are modelled by trying the variants in
  declaration order and keeping the first structural success; unlisted keys
  of a dictionary are ignored, as serde derive does without
  `deny_unknown_fields`.
* Fallible operations return `Option`/`Except`.
-/

/-! ## Key literals used by the schemas -/

def kName : String := "name"
def kPieceLength : String := "piece length"
def kPieces : String := "pieces"
def kPrivate : String := "private"
def kLength : String := "length"
def kMd5sum : String := "md5sum"
def kFiles : String := "files"
def kPath : String := "path"
def kMetaVersion : String := "meta version"
def kFileTree : String := "file tree"
def kPiecesRoot : String := "pieces root"

def keyName : List Char := kName.toList
def keyPieceLength : List Char := kPieceLength.toList
def keyPieces : List Char := kPieces.toList
def keyPrivate : List Char := kPrivate.toList
def keyLength : List Char := kLength.toList
def keyMd5sum : List Char := kMd5sum.toList
def keyFiles : List Char := kFiles.toList
def keyPath : List Char := kPath.toList
def keyMetaVersion : List Char := kMetaVersion.toList
def keyFileTree : List Char := kFileTree.toList
def keyPiecesRoot : List Char := kPiecesRoot.toList

/-! ## Decoded bencode values

The generic decoder (`serde_bencode`) is external to the core under
verification; schema resolution starts from an already-decoded nested value.
-/

mutual
inductive BValue where
  | int (n : Int)
  | str (s : List Char)
  | list (items : BList)
  | dict (entries : BDict)
deriving DecidableEq
inductive BList where
  | nil
  | cons (v : BValue) (rest : BList)
deriving DecidableEq
inductive BDict where
  | nil
  | cons (key : List Char) (v : BValue) (rest : BDict)
deriving DecidableEq
end

def bdictLookup : BDict → List Char → Option BValue
  | .nil, _ => none
  | .cons k v rest, key => if k = key then some v else bdictLookup rest key

/-- serde deserialization of `u64` from a bencode integer. -/
def decodeU64 : BValue → Option Nat
  | .int n => if 0 ≤ n then some n.toNat else none
  | _ => none

/-- serde deserialization of `u8` from a bencode integer. -/
def decodeU8 : BValue → Option Nat
  | .int n => if 0 ≤ n ∧ n < 256 then some n.toNat else none
  | _ => none

/-- serde deserialization of a text field (`String`). -/
def decodeStr : BValue → Option (List Char)
  | .str s => some s
  | _ => none

/-- serde deserialization of a raw byte field (`serde_bytes::ByteBuf`). -/
def decodeBytes : BValue → Option (List Char)
  | .str s => some s
  | _ => none

/-- An optional struct field: absent is fine, present must decode. -/
def decodeOptField (d : BDict) (key : List Char) (f : BValue → Option α) :
    Option (Option α) :=
  match bdictLookup d key with
  | none => some none
  | some v => (f v).map some

/-! ## Flat-List (v1 generation) content model

From `src/parser/src/file/mod.rs` (`TorrentInfoContent`, `TorrentFileEntry`)
and `src/parser/src/file/v1.rs` (whose `TorrentInfoContent` variants
`File`/`Directory` have the same required keys as `Single`/`Multi`).
-/

structure TorrentFileEntry where
  length : Nat
  path : List (List Char)
  md5sum : Option (List Char)
deriving DecidableEq

inductive TorrentInfoContent where
  | single (length : Nat) (md5sum : Option (List Char))
  | multi (files : List TorrentFileEntry)
deriving DecidableEq

def decodePathList : BList → Option (List (List Char))
  | .nil => some []
  | .cons v rest => do
    let s ← decodeStr v
    let r ← decodePathList rest
    pure (s :: r)

def decodeFileEntry : BValue → Option TorrentFileEntry
  | .dict d => do
    let len ← (bdictLookup d keyLength).bind decodeU64
    let pathVal ← bdictLookup d keyPath
    let path ← match pathVal with
      | .list items => decodePathList items
      | _ => none
    let md5 ← decodeOptField d keyMd5sum decodeStr
    pure ⟨len, path, md5⟩
  | _ => none

def decodeFileEntries : BList → Option (List TorrentFileEntry)
  | .nil => some []
  | .cons v rest => do
    let e ← decodeFileEntry v
    let r ← decodeFileEntries rest
    pure (e :: r)

/-- The `Single` variant of the untagged `TorrentInfoContent`: requires a
`length` key (as `u64`), with `md5sum` optional. -/
def trySingle (d : BDict) : Option TorrentInfoContent := do
  let len ← (bdictLookup d keyLength).bind decodeU64
  let md5 ← decodeOptField d keyMd5sum decodeStr
  pure (.single len md5)

/-- The `Multi` variant of the untagged `TorrentInfoContent`: requires a
`files` key holding a list of file entries. -/
def tryMulti (d : BDict) : Option TorrentInfoContent := do
  let filesVal ← bdictLookup d keyFiles
  match filesVal with
  | .list items => (decodeFileEntries items).map .multi
  | _ => none

/-- serde's untagged dispatch for `TorrentInfoContent`: `Single` is attempted
first, then `Multi`; the first variant whose required keys decode wins and
unknown keys are ignored. -/
def decodeTorrentInfoContent (d : BDict) : Option TorrentInfoContent :=
  match trySingle d with
  | some c => some c
  | none => tryMulti d

/-- `TorrentInfoFields` of `src/parser/src/file/v1.rs`: the concatenated
per-chunk hash blob plus the single/multi content. -/
structure TorrentInfoFieldsV1 where
  pieces : List Char
  content : TorrentInfoContent
deriving DecidableEq

def decodeV1Fields (d : BDict) : Option TorrentInfoFieldsV1 := do
  let pieces ← (bdictLookup d keyPieces).bind decodeBytes
  let content ← decodeTorrentInfoContent d
  pure ⟨pieces, content⟩

/-! ## File-Tree (v2 generation) model

From `src/parser/src/file/v2.rs`. `BTreeMap<String, FileTreeNode>` is
modelled as an association list kept sorted by a strict lexicographic key
order (`keyLt`, the order of Rust's `String`), built by sorted insertion.
-/

/-- Strict lexicographic order on keys, mirroring `Ord` on Rust strings
(UTF-8 byte order coincides with code-point order). -/
def keyLt : List Char → List Char → Bool
  | [], [] => false
  | [], _ :: _ => true
  | _ :: _, [] => false
  | a :: as, b :: bs => if a < b then true else if b < a then false else keyLt as bs

structure TorrentFileEntryV2 where
  length : Nat
  piecesRoot : List Char
  md5sum : Option (List Char)
deriving DecidableEq

mutual
inductive FileTreeNode where
  | file (entry : TorrentFileEntryV2)
  | directory (children : FileTreeMap)
deriving DecidableEq
inductive FileTreeMap where
  | nil
  | cons (name : List Char) (node : FileTreeNode) (rest : FileTreeMap)
deriving DecidableEq
end

/-- `BTreeMap::insert`: keeps keys in ascending `keyLt` order, replacing the
value when the key is already present. -/
def btreeInsert (k : List Char) (v : FileTreeNode) : FileTreeMap → FileTreeMap
  | .nil => .cons k v .nil
  | .cons k2 v2 rest =>
    if keyLt k k2 then .cons k v (.cons k2 v2 rest)
    else if k = k2 then .cons k v rest
    else .cons k2 v2 (btreeInsert k v rest)

/-- Building a `BTreeMap` from entries in encounter order (as serde's map
visitor does); a later duplicate key overwrites an earlier one. -/
def btreeFromList (l : List (List Char × FileTreeNode)) : FileTreeMap :=
  l.foldl (fun acc p => btreeInsert p.1 p.2 acc) .nil

def mapKeys : FileTreeMap → List (List Char)
  | .nil => []
  | .cons k _ rest => k :: mapKeys rest

def keysAscending : List (List Char) → Bool
  | [] => true
  | [_] => true
  | a :: b :: rest => keyLt a b && keysAscending (b :: rest)

mutual
def nodeSize : FileTreeNode → Nat
  | .file _ => 1
  | .directory cs => 1 + mapSize cs
def mapSize : FileTreeMap → Nat
  | .nil => 0
  | .cons _ n rest => nodeSize n + mapSize rest
end

mutual
/-- `FileTreeNode::file_count` of `v2.rs`, with the per-map sum it recurses
through. -/
def nodeFileCount : FileTreeNode → Nat
  | .file _ => 1
  | .directory inner => mapFileCount inner
def mapFileCount : FileTreeMap → Nat
  | .nil => 0
  | .cons _ n rest => nodeFileCount n + mapFileCount rest
end

/-- The `File` variant of the untagged `FileTreeNode`: a dictionary carrying
`length` and `pieces root` (with optional `md5sum`). -/
def decodeTreeEntry (d : BDict) : Option TorrentFileEntryV2 := do
  let len ← (bdictLookup d keyLength).bind decodeU64
  let pr ← (bdictLookup d keyPiecesRoot).bind decodeBytes
  let md5 ← decodeOptField d keyMd5sum decodeStr
  pure ⟨len, pr, md5⟩

mutual
/-- Untagged `FileTreeNode` dispatch: try `File` first, then `Directory`
(every value of the dictionary must itself decode as a node). -/
def decodeFileTreeNode : BValue → Option FileTreeNode
  | .dict d =>
    match decodeTreeEntry d with
    | some e => some (.file e)
    | none =>
      match decodeFileTreeMap d .nil with
      | some m => some (.directory m)
      | none => none
  | _ => none
def decodeFileTreeMap : BDict → FileTreeMap → Option FileTreeMap
  | .nil, acc => some acc
  | .cons k v rest, acc =>
    match decodeFileTreeNode v with
    | some n => decodeFileTreeMap rest (btreeInsert k n acc)
    | none => none
end

/-- `TorrentInfoFields` of `src/parser/src/file/v2.rs`: format version and
the recursive file tree. -/
structure TorrentInfoFieldsV2 where
  metaVersion : Nat
  fileTree : FileTreeMap
deriving DecidableEq

def decodeV2Fields (d : BDict) : Option TorrentInfoFieldsV2 := do
  let mv ← (bdictLookup d keyMetaVersion).bind decodeU8
  let ftv ← bdictLookup d keyFileTree
  match ftv with
  | .dict entries => (decodeFileTreeMap entries .nil).map (⟨mv, ·⟩)
  | _ => none

/-- `TorrentInfoFields::file_count` of `v2.rs`. -/
def fieldsFileCount (f : TorrentInfoFieldsV2) : Nat := mapFileCount f.fileTree

/-! ### The file-tree iterator of `v2.rs`

`FileTreeIterator` keeps an explicit stack of `(path, remaining-siblings)`
frames (the head of the list is the top of the stack). The recursion of
`Iterator::next` is bounded by the tree size, embedded here through a fuel
argument large enough to never run out (`fileIter` supplies it). Note that
the `File` arm returns the frame's path without appending the leaf's own
segment name, exactly as the source does. -/
def fileIterFuel :
    Nat → List (List (List Char) × FileTreeMap) →
    List (List (List Char) × TorrentFileEntryV2)
  | 0, _ => []
  | _ + 1, [] => []
  | fuel + 1, (_, .nil) :: stack => fileIterFuel fuel stack
  | fuel + 1, (path, .cons _ (.file inner) rest) :: stack =>
    (path, inner) :: fileIterFuel fuel ((path, rest) :: stack)
  | fuel + 1, (path, .cons name (.directory inner) rest) :: stack =>
    fileIterFuel fuel ((path ++ [name], inner) :: (path, rest) :: stack)

def stackWeight : List (List (List Char) × FileTreeMap) → Nat
  | [] => 0
  | (_, m) :: rest => mapSize m + stackWeight rest

def stackCount : List (List (List Char) × FileTreeMap) → Nat
  | [] => 0
  | (_, m) :: rest => mapFileCount m + stackCount rest

/-- `TorrentInfoFields::file_iter` of `v2.rs`: the fully consumed iterator,
started from an empty path prefix. -/
def fileIter (m : FileTreeMap) : List (List (List Char) × TorrentFileEntryV2) :=
  fileIterFuel (2 * mapSize m + 2) [([], m)]

/-! ## Shared base fields and the schema resolver -/

/-- Modelled from the spec: `TorrentInfoBase`, the shared metadata base
referenced by `v1.rs`, `v2.rs` and `v2hybrid.rs` but not present under
`src/` in this snapshot. Per §3 (MetadataBase) and the §6 key table it
carries the chunk size (`piece length`), the optional privacy flag
(`private`) and the display name (`name`). -/
structure TorrentInfoBase where
  name : List Char
  pieceLength : Nat
  privateFlag : Option Nat
deriving DecidableEq

/-- Modelled from the spec: structural construction of the shared base from
the info dictionary (required `name` and `piece length`, optional
`private`). -/
def decodeBase (d : BDict) : Option TorrentInfoBase := do
  let nm ← (bdictLookup d keyName).bind decodeStr
  let pl ← (bdictLookup d keyPieceLength).bind decodeU64
  let pf ← decodeOptField d keyPrivate decodeU8
  pure ⟨nm, pl, pf⟩

/-- `TorrentInfo` of `src/parser/src/file/v1.rs`: base + flat-list fields. -/
structure TorrentInfoV1 where
  base : TorrentInfoBase
  fields : TorrentInfoFieldsV1
deriving DecidableEq

/-- `TorrentInfo` of `src/parser/src/file/v2.rs`: base + file-tree fields. -/
structure TorrentInfoV2 where
  base : TorrentInfoBase
  fields : TorrentInfoFieldsV2
deriving DecidableEq

/-- `TorrentInfo` of `src/parser/src/file/v2hybrid.rs`: base + both the
flat-list fields and the file-tree fields, flattened from one dictionary. -/
structure TorrentInfoHybrid where
  base : TorrentInfoBase
  v1 : TorrentInfoFieldsV1
  v2 : TorrentInfoFieldsV2
deriving DecidableEq

def decodeTorrentInfoV1 (d : BDict) : Option TorrentInfoV1 := do
  let b ← decodeBase d
  let f ← decodeV1Fields d
  pure ⟨b, f⟩

def decodeTorrentInfoV2 (d : BDict) : Option TorrentInfoV2 := do
  let b ← decodeBase d
  let f ← decodeV2Fields d
  pure ⟨b, f⟩

def decodeTorrentInfoHybrid (d : BDict) : Option TorrentInfoHybrid := do
  let b ← decodeBase d
  let f1 ← decodeV1Fields d
  let f2 ← decodeV2Fields d
  pure ⟨b, f1, f2⟩

/-- The resolved tagged union over the three schema generations. -/
inductive TorrentInfoResolved where
  | v2hybrid (info : TorrentInfoHybrid)
  | v2 (info : TorrentInfoV2)
  | v1 (info : TorrentInfoV1)
deriving DecidableEq

/-- Modelled from the spec: the schema resolver (§4.1), an untagged union
over the three per-generation `TorrentInfo` structures that is absent from
`src/parser/src/file/mod.rs` in this snapshot (only the three variant
structures are present). It attempts structural construction of Hybrid
first, then TreeOnly (v2), then FlatOnly (v1), returning the first success;
`none` is the `NoVariantMatched` outcome. -/
def resolveTorrentInfo (d : BDict) : Option TorrentInfoResolved :=
  match decodeTorrentInfoHybrid d with
  | some h => some (.v2hybrid h)
  | none =>
    match decodeTorrentInfoV2 d with
    | some t => some (.v2 t)
    | none =>
      match decodeTorrentInfoV1 d with
      | some f => some (.v1 f)
      | none => none

/-! ## Flat-List file iteration (`v1.rs`) -/

/-- `TorrentFileEntry::path` of `v1.rs`: folding `PathBuf::join` over the
path segments, which concatenates them in order. -/
def entryPath (e : TorrentFileEntry) : List (List Char) :=
  e.path.foldl (fun acc part => acc ++ [part]) []

/-- `TorrentInfoFields::file_iter` of `v1.rs`: a single-file torrent yields
the one-segment path made of the base display name; a multi-file torrent
yields each entry's path in source order. -/
def v1FileIter (fields : TorrentInfoFieldsV1) (baseName : List Char) :
    List (List (List Char)) :=
  match fields.content with
  | .single _ _ => [[baseName]]
  | .multi files => files.map entryPath

/-- Modelled from the spec: the uniform file enumerator of §4.2 for the
Flat-List variant, yielding `(path, length, optional per-file hash)`
triples; the triple-yielding wrapper is absent from `src/` (the source
`file_iter` of `v1.rs` yields paths only). Per §4.2 the hash is absent in
this generation and the paths are those of `file_iter`. -/
def v1Enumerate (base : TorrentInfoBase) (fields : TorrentInfoFieldsV1) :
    List (List (List Char) × Nat × Option (List Char)) :=
  match fields.content with
  | .single len _ => [([base.name], len, none)]
  | .multi files => files.map (fun e => (entryPath e, e.length, none))

/-! ## Magnet link parsing (`src/parser/src/magnet/mod.rs`)

`MagnetLink::from_str` first parses the URI with the external `url` crate
and checks the scheme; both are outside the core under verification. The
embedding starts from the decoded query pairs, iterated in source order.
-/

def kXt : String := "xt"
def kDn : String := "dn"
def kTr : String := "tr"
def kWs : String := "ws"
def kUrnBtih : String := "urn:btih:"

def xtKey : List Char := kXt.toList
def dnKey : List Char := kDn.toList
def trKey : List Char := kTr.toList
def wsKey : List Char := kWs.toList
def urnBtih : List Char := kUrnBtih.toList

/-- `str::trim_start_matches`: repeatedly removes the leading pattern. The
fuel argument makes the recursion structural; `trimStartMatches` supplies
fuel that can never run out (each removal shortens the string). -/
def trimAux (pat : List Char) : Nat → List Char → List Char
  | 0, s => s
  | fuel + 1, s =>
    if pat ≠ [] ∧ pat.isPrefixOf s then trimAux pat fuel (s.drop pat.length) else s

def trimStartMatches (s pat : List Char) : List Char := trimAux pat s.length s

/-- `ParseError` of `magnet/mod.rs` (the `url::ParseError` payload of
`InvalidUrl` is abstracted away). -/
inductive MagnetParseError where
  | invalidUrl
  | invalidScheme
  | missingInfoHash
deriving DecidableEq

structure MagnetLink where
  info_hash : List Char
  display_name : Option (List Char)
  trackers : List (List Char)
  web_seeds : List (List Char)
  params : List (List Char × List Char)
deriving DecidableEq

/-- The mutable accumulator state of the `for` loop in
`MagnetLink::from_str`. -/
structure MagnetAcc where
  info_hash : Option (List Char)
  display_name : Option (List Char)
  trackers : List (List Char)
  web_seeds : List (List Char)
  params : List (List Char × List Char)
deriving DecidableEq

def magnetAccInit : MagnetAcc := ⟨none, none, [], [], []⟩

/-- One iteration of the query-pair loop: the `xt` arm only fires when the
value carries the `urn:btih:` prefix (match-arm guard); otherwise the pair
falls through to the catch-all arm together with every unrecognized key. -/
def magnetStep (acc : MagnetAcc) (p : List Char × List Char) : MagnetAcc :=
  if p.1 = xtKey ∧ urnBtih.isPrefixOf p.2 then
    { acc with info_hash := some (trimStartMatches p.2 urnBtih) }
  else if p.1 = dnKey then
    { acc with display_name := some p.2 }
  else if p.1 = trKey then
    { acc with trackers := acc.trackers ++ [p.2] }
  else if p.1 = wsKey then
    { acc with web_seeds := acc.web_seeds ++ [p.2] }
  else
    { acc with params := acc.params ++ [p] }

/-- `MagnetLink::from_str` after URL parsing and the scheme check: fold the
query pairs in source order, then require a captured info hash. -/
def fromQueryPairs (pairs : List (List Char × List Char)) :
    Except MagnetParseError MagnetLink :=
  let acc := pairs.foldl magnetStep magnetAccInit
  match acc.info_hash with
  | some h => .ok ⟨h, acc.display_name, acc.trackers, acc.web_seeds, acc.params⟩
  | none => .error .missingInfoHash

def isCapturingXt (p : List Char × List Char) : Bool :=
  decide (p.1 = xtKey) && urnBtih.isPrefixOf p.2

def isDnPair (p : List Char × List Char) : Bool := decide (p.1 = dnKey)

def isTrPair (p : List Char × List Char) : Bool := decide (p.1 = trKey)

def isWsPair (p : List Char × List Char) : Bool := decide (p.1 = wsKey)

/-- A pair consumed by one of the four recognized arms (for `xt`, only when
the guard holds). -/
def isRecognizedPair (p : List Char × List Char) : Bool :=
  isCapturingXt p || isDnPair p || isTrPair p || isWsPair p

/-! ## Hash normalization (`MagnetLink::hash_bytes`) -/

inductive HashBytesError where
  | unsupportedLength
  | invalidHex
  | invalidBase32
  | invalidLength
deriving DecidableEq

/-- Value of one hexadecimal digit character (`hex` crate, both cases). -/
def hexVal (c : Char) : Option Nat :=
  if '0' ≤ c ∧ c ≤ '9' then some (c.toNat - 48)
  else if 'a' ≤ c ∧ c ≤ 'f' then some (c.toNat - 87)
  else if 'A' ≤ c ∧ c ≤ 'F' then some (c.toNat - 55)
  else none

/-- `hex::decode`: consumes the characters two at a time (high nibble
first); odd length or a non-hex character fails. -/
def hexDecode : List Char → Option (List Nat)
  | [] => some []
  | [_] => none
  | hi :: lo :: rest => do
    let h ← hexVal hi
    let l ← hexVal lo
    let r ← hexDecode rest
    pure ((h * 16 + l) :: r)

/-- Lowercase hexadecimal digit character. -/
def hexDigit (n : Nat) : Char :=
  if n < 10 then Char.ofNat (48 + n) else Char.ofNat (87 + n)

/-- The hexadecimal 2-characters-per-byte text encoding (lowercase), the
encoding `hash_bytes` is claimed to invert on 20-byte inputs. -/
def hexEncode (bs : List Nat) : List Char :=
  bs.flatMap (fun b => [hexDigit (b / 16), hexDigit (b % 16)])

/-- The eight bits of a byte, most significant first. -/
def byteBits (n : Nat) : List Bool :=
  [n.testBit 7, n.testBit 6, n.testBit 5, n.testBit 4,
   n.testBit 3, n.testBit 2, n.testBit 1, n.testBit 0]

/-- The five bits of a base-32 digit, most significant first. -/
def b32Bits (d : Nat) : List Bool :=
  [d.testBit 4, d.testBit 3, d.testBit 2, d.testBit 1, d.testBit 0]

def bitsToNat (l : List Bool) : Nat :=
  l.foldl (fun a b => 2 * a + (if b then 1 else 0)) 0

/-- Split a bit stream into 5-bit base-32 digits, zero-padding a trailing
partial group (RFC 4648). -/
def bitsToB32Digits : List Bool → List Nat
  | b0 :: b1 :: b2 :: b3 :: b4 :: rest =>
    bitsToNat [b0, b1, b2, b3, b4] :: bitsToB32Digits rest
  | [] => []
  | l => [bitsToNat (l ++ List.replicate (5 - l.length) false)]

/-- Reassemble bytes from a bit stream, dropping a trailing partial byte
(the `base32` crate's truncation to `5 * n / 8` output bytes). -/
def bitsToBytes : List Bool → List Nat
  | b0 :: b1 :: b2 :: b3 :: b4 :: b5 :: b6 :: b7 :: rest =>
    bitsToNat [b0, b1, b2, b3, b4, b5, b6, b7] :: bitsToBytes rest
  | _ => []

/-- RFC 4648 base-32 alphabet character for a digit below 32 (uppercase). -/
def b32Char (d : Nat) : Char :=
  if d < 26 then Char.ofNat (65 + d) else Char.ofNat (50 + (d - 26))

/-- Digit of an RFC 4648 base-32 alphabet character. -/
def b32Val (c : Char) : Option Nat :=
  if 'A' ≤ c ∧ c ≤ 'Z' then some (c.toNat - 65)
  else if '2' ≤ c ∧ c ≤ '7' then some (c.toNat - 24)
  else none

/-- `base32::decode` with `Alphabet::Rfc4648 { padding: false }` on
padding-free input: uppercase the text, map each character to its 5-bit
digit (failing on a foreign character), reassemble bytes from the bit
stream. -/
def b32Decode (cs : List Char) : Option (List Nat) := do
  let digits ← cs.mapM (fun c => b32Val c.toUpper)
  pure (bitsToBytes (digits.flatMap b32Bits))

/-- The unpadded RFC 4648 base-32 text encoding (uppercase), the second
encoding `hash_bytes` is claimed to invert on 20-byte inputs. -/
def b32Encode (bs : List Nat) : List Char :=
  (bitsToB32Digits (bs.flatMap byteBits)).map b32Char

/-- `MagnetLink::hash_bytes`: lowercase the stored info hash, then decode it
as 40 hex characters or 32 base-32 characters into exactly 20 bytes. -/
def hashBytes (infoHash : List Char) : Except HashBytesError (List Nat) :=
  let cleaned := infoHash.map Char.toLower
  if cleaned.length = 40 then
    match hexDecode cleaned with
    | some decoded =>
      if decoded.length = 20 then .ok decoded else .error .invalidLength
    | none => .error .invalidHex
  else if cleaned.length = 32 then
    match b32Decode cleaned with
    | some decoded =>
      if decoded.length = 20 then .ok decoded else .error .invalidLength
    | none => .error .invalidBase32
  else .error .unsupportedLength

/-! ## Concrete inputs used by witnesses and counterexamples -/

def kA : String := "a"
def kB : String := "b"
def kX : String := "x"
def kRt : String := "rt"
def kATxt : String := "a.txt"
def kNohash : String := "nohash"
def kAa : String := "aa"
def kGoodXt : String := "urn:btih:aa"
def kZz : String := "zz"
def kDouble : String := "urn:btih:urn:btih:zz"

def nameA : List Char := kA.toList
def nameB : List Char := kB.toList
def nameATxt : List Char := kATxt.toList

def sampleEntryV2 : TorrentFileEntryV2 := ⟨5, kRt.toList, none⟩

def sampleEntryV2B : TorrentFileEntryV2 := ⟨6, kRt.toList, none⟩

/-- A one-leaf file tree: the single file `a.txt` at the root. -/
def treeC3 : FileTreeMap := .cons nameATxt (.file sampleEntryV2) .nil

def entriesAB : List (List Char × FileTreeNode) :=
  [(nameB, .file sampleEntryV2B), (nameA, .file sampleEntryV2)]

def entriesBA : List (List Char × FileTreeNode) :=
  [(nameA, .file sampleEntryV2), (nameB, .file sampleEntryV2B)]

/-- An info dictionary carrying the required keys of both the Flat-List and
the File-Tree generations. -/
def dictHybrid : BDict :=
  .cons keyName (.str kX.toList)
    (.cons keyPieceLength (.int 1)
      (.cons keyPieces (.str [])
        (.cons keyLength (.int 7)
          (.cons keyMetaVersion (.int 2)
            (.cons keyFileTree
              (.dict (.cons nameA
                (.dict (.cons keyLength (.int 7)
                  (.cons keyPiecesRoot (.str kRt.toList) .nil)))
                .nil))
              .nil)))))

/-- A content dictionary carrying both `length` and `files`. -/
def dictBoth : BDict := .cons keyLength (.int 5) (.cons keyFiles (.list .nil) .nil)

def dictSingleOnly : BDict := .cons keyLength (.int 5) .nil

def dictMultiOnly : BDict := .cons keyFiles (.list .nil) .nil

def cexC7Pairs : List (List Char × List Char) :=
  [(xtKey, kNohash.toList), (xtKey, kGoodXt.toList)]

def c8Pairs : List (List Char × List Char) := [(xtKey, kGoodXt.toList)]

def bytesC9 : List Nat := List.replicate 20 0

deriving instance DecidableEq for Except

set_option maxRecDepth 8192

/-! ## Theorems -/

/-- C2 counterexample: a content dictionary carrying both `length` and
`files` does not fail — the untagged dispatch accepts it as `Single`,
ignoring the `files` key. -/
theorem c2_counterexample :
    decodeTorrentInfoContent dictBoth = some (.single 5 none) ∧
    (bdictLookup dictBoth keyLength).isSome = true ∧
    (bdictLookup dictBoth keyFiles).isSome = true :=
  ⟨by decide, by decide, by decide⟩

/-- C2 (amended): at the content level, a `length` key decoding as `u64`
(with `md5sum` absent or text) selects `Single` even when `files` is also
present, because `Single` is attempted first; with `length` absent, a
well-formed `files` list selects `Multi`; with neither key present,
resolution fails. -/
theorem c2_content_dispatch (d : BDict) (n : Int) (m : Option (List Char))
    (items : BList) (fs : List TorrentFileEntry) :
    (bdictLookup d keyLength = some (.int n) → 0 ≤ n →
      decodeOptField d keyMd5sum decodeStr = some m →
      decodeTorrentInfoContent d = some (.single n.toNat m)) ∧
    (bdictLookup d keyLength = none → bdictLookup d keyFiles = some (.list items) →
      decodeFileEntries items = some fs →
      decodeTorrentInfoContent d = some (.multi fs)) ∧
    (bdictLookup d keyLength = none → bdictLookup d keyFiles = none →
      decodeTorrentInfoContent d = none) := by
  refine ⟨fun h1 h2 h3 => ?_, fun h1 h2 h3 => ?_, fun h1 h2 => ?_⟩
  · simp [decodeTorrentInfoContent, trySingle, h1, h2, h3, decodeU64]
  · simp [decodeTorrentInfoContent, trySingle, tryMulti, h1, h2, h3]
  · simp [decodeTorrentInfoContent, trySingle, tryMulti, h1, h2]

/-- Witness for C2 (amended): each branch of the dispatch at a concrete
content dictionary. -/
theorem c2_content_dispatch_witness :
    decodeTorrentInfoContent dictSingleOnly = some (.single 5 none) ∧
    decodeTorrentInfoContent dictMultiOnly = some (.multi []) ∧
    decodeTorrentInfoContent BDict.nil = none :=
  ⟨(c2_content_dispatch dictSingleOnly 5 none .nil []).1 (by decide) (by decide)
      (by decide),
   (c2_content_dispatch dictMultiOnly 5 none .nil []).2.1 (by decide) (by decide)
      (by decide),
   (c2_content_dispatch BDict.nil 5 none .nil []).2.2 (by decide) (by decide)⟩

/-- C3: the iterator of `v2.rs` yields a leaf with the enclosing directory
prefix only — the leaf's own segment name is dropped (the claim expects
path `["a.txt"]` for the sole leaf `a.txt` at the root, the code yields
`[]`). -/
theorem c3_leaf_path_drops_segment_name :
    fileIter treeC3 = [([], sampleEntryV2)] ∧
    fileIter treeC3 ≠ [([nameATxt], sampleEntryV2)] :=
  ⟨by decide, by decide⟩

/-- C1: an info dictionary on which the shared base, the Flat-List fields
and the File-Tree fields all structurally decode resolves to the Hybrid
variant (the resolver attempts Hybrid first, and Hybrid's construction is
exactly those three decodes on the same dictionary), never to FlatOnly or
TreeOnly. -/
theorem c1_resolver_hybrid_priority (d : BDict) (b : TorrentInfoBase)
    (f1 : TorrentInfoFieldsV1) (f2 : TorrentInfoFieldsV2)
    (h1 : decodeBase d = some b) (h2 : decodeV1Fields d = some f1)
    (h3 : decodeV2Fields d = some f2) :
    resolveTorrentInfo d = some (.v2hybrid ⟨b, f1, f2⟩) := by
  unfold resolveTorrentInfo
  simp [decodeTorrentInfoHybrid, h1, h2, h3]

/-- Witness for C1: a concrete dictionary carrying both generations' keys
resolves to Hybrid. -/
theorem c1_resolver_hybrid_priority_witness :
    resolveTorrentInfo dictHybrid =
      some (.v2hybrid ⟨⟨kX.toList, 1, none⟩, ⟨[], .single 7 none⟩,
        ⟨2, .cons nameA (.file ⟨7, kRt.toList, none⟩) .nil⟩⟩) :=
  c1_resolver_hybrid_priority dictHybrid ⟨kX.toList, 1, none⟩
    ⟨[], .single 7 none⟩ ⟨2, .cons nameA (.file ⟨7, kRt.toList, none⟩) .nil⟩
    (by decide) (by decide) (by decide)

/-! ### Order lemmas for `keyLt` -/

theorem keyLt_irrefl (l : List Char) : keyLt l l = false := by
  induction l with
  | nil => rfl
  | cons a as ih => simp [keyLt, ih]

theorem keyLt_asymm : ∀ {a b : List Char}, keyLt a b = true → keyLt b a = false
  | [], [], h => by simp [keyLt] at h
  | [], _ :: _, _ => by simp [keyLt]
  | _ :: _, [], h => by simp [keyLt] at h
  | x :: xs, y :: ys, h => by
    simp only [keyLt] at h ⊢
    rcases lt_trichotomy x y with hlt | heq | hgt
    · rw [if_neg (lt_asymm hlt), if_pos hlt]
    · subst heq
      rw [if_neg (lt_irrefl x), if_neg (lt_irrefl x)] at h ⊢
      exact keyLt_asymm h
    · rw [if_neg (lt_asymm hgt), if_pos hgt] at h
      cases h

theorem keyLt_total : ∀ {a b : List Char},
    keyLt a b = false → keyLt b a = false → a = b
  | [], [], _, _ => rfl
  | [], _ :: _, h1, _ => by simp [keyLt] at h1
  | _ :: _, [], _, h2 => by simp [keyLt] at h2
  | x :: xs, y :: ys, h1, h2 => by
    simp only [keyLt] at h1 h2
    rcases lt_trichotomy x y with hlt | heq | hgt
    · rw [if_pos hlt] at h1; cases h1
    · subst heq
      rw [if_neg (lt_irrefl x), if_neg (lt_irrefl x)] at h1 h2
      exact congrArg (List.cons x) (keyLt_total h1 h2)
    · rw [if_pos hgt] at h2; cases h2

theorem keyLt_trans : ∀ {a b c : List Char},
    keyLt a b = true → keyLt b c = true → keyLt a c = true
  | [], b, [], _, h2 => by cases b <;> simp [keyLt] at h2
  | [], _, _ :: _, _, _ => by simp [keyLt]
  | _ :: _, [], _, h1, _ => by simp [keyLt] at h1
  | _ :: _, _ :: _, [], _, h2 => by simp [keyLt] at h2
  | x :: xs, y :: ys, z :: zs, h1, h2 => by
    simp only [keyLt] at h1 h2 ⊢
    rcases lt_trichotomy x y with hxy | hxy | hxy
    · rcases lt_trichotomy y z with hyz | hyz | hyz
      · rw [if_pos (lt_trans hxy hyz)]
      · subst hyz; rw [if_pos hxy]
      · rw [if_neg (lt_asymm hyz), if_pos hyz] at h2; cases h2
    · subst hxy
      rw [if_neg (lt_irrefl x), if_neg (lt_irrefl x)] at h1
      rcases lt_trichotomy x z with hxz | hxz | hxz
      · rw [if_pos hxz]
      · subst hxz
        rw [if_neg (lt_irrefl x), if_neg (lt_irrefl x)] at h2 ⊢
        exact keyLt_trans h1 h2
      · rw [if_neg (lt_asymm hxz), if_pos hxz] at h2; cases h2
    · rw [if_neg (lt_asymm hxy), if_pos hxy] at h1; cases h1

theorem keyLt_ne {a b : List Char} (h : keyLt a b = true) : a ≠ b := by
  intro he; subst he; rw [keyLt_irrefl] at h; cases h

theorem keyLt_of_ne {a b : List Char} (h : a ≠ b) :
    keyLt a b = true ∨ keyLt b a = true := by
  by_cases h1 : keyLt a b = true
  · exact Or.inl h1
  · by_cases h2 : keyLt b a = true
    · exact Or.inr h2
    · exact absurd (keyLt_total (by simpa using h1) (by simpa using h2)) h

/-! ### `btreeInsert` lemmas -/

def headKeyOpt : FileTreeMap → Option (List Char)
  | .nil => none
  | .cons k _ _ => some k

theorem btreeInsert_front {k k3 : List Char} {v v3 : FileTreeNode}
    {rest : FileTreeMap} (h : keyLt k k3 = true) :
    btreeInsert k v (.cons k3 v3 rest) = .cons k v (.cons k3 v3 rest) := by
  simp [btreeInsert, h]

theorem btreeInsert_replace {k : List Char} {v v3 : FileTreeNode}
    {rest : FileTreeMap} :
    btreeInsert k v (.cons k v3 rest) = .cons k v rest := by
  simp [btreeInsert, keyLt_irrefl]

theorem btreeInsert_skip {k k3 : List Char} {v v3 : FileTreeNode}
    {rest : FileTreeMap} (h1 : keyLt k k3 = false) (h2 : k ≠ k3) :
    btreeInsert k v (.cons k3 v3 rest) = .cons k3 v3 (btreeInsert k v rest) := by
  simp [btreeInsert, h1, h2]

theorem btreeInsert_front_of_headKey {k : List Char} {v : FileTreeNode}
    {m : FileTreeMap} (h : ∀ hk, headKeyOpt m = some hk → keyLt k hk = true) :
    btreeInsert k v m = .cons k v m := by
  cases m with
  | nil => rfl
  | cons k3 v3 rest => exact btreeInsert_front (h k3 rfl)

theorem headKeyOpt_btreeInsert {k : List Char} {v : FileTreeNode}
    {m : FileTreeMap} {hk : List Char}
    (h : headKeyOpt (btreeInsert k v m) = some hk) :
    hk = k ∨ headKeyOpt m = some hk := by
  cases m with
  | nil =>
    simp [btreeInsert, headKeyOpt] at h
    exact Or.inl h.symm
  | cons k3 v3 rest =>
    by_cases h1 : keyLt k k3 = true
    · rw [btreeInsert_front h1] at h
      simp [headKeyOpt] at h
      exact Or.inl h.symm
    · by_cases h2 : k = k3
      · subst h2
        rw [btreeInsert_replace] at h
        simp [headKeyOpt] at h
        exact Or.inl h.symm
      · rw [btreeInsert_skip (by simpa using h1) h2] at h
        exact Or.inr h

theorem btreeInsert_comm_lt (k1 k2 : List Char) (v1 v2 : FileTreeNode)
    (hlt : keyLt k1 k2 = true) :
    ∀ m, btreeInsert k2 v2 (btreeInsert k1 v1 m) =
      btreeInsert k1 v1 (btreeInsert k2 v2 m)
  | .nil => by
    have hne : k1 ≠ k2 := keyLt_ne hlt
    have hlt' : keyLt k2 k1 = false := keyLt_asymm hlt
    show btreeInsert k2 v2 (.cons k1 v1 .nil) =
      btreeInsert k1 v1 (.cons k2 v2 .nil)
    rw [btreeInsert_skip hlt' (Ne.symm hne), btreeInsert_front hlt]
    rfl
  | .cons k3 v3 rest => by
    have hne : k1 ≠ k2 := keyLt_ne hlt
    have hlt' : keyLt k2 k1 = false := keyLt_asymm hlt
    have ih := btreeInsert_comm_lt k1 k2 v1 v2 hlt rest
    by_cases h13 : keyLt k1 k3 = true
    · -- k1 goes to the front of the original map
      rw [btreeInsert_front h13,
        btreeInsert_skip hlt' (Ne.symm hne)]
      rw [btreeInsert_front_of_headKey (m := btreeInsert k2 v2 (.cons k3 v3 rest))
        (fun hk hhk => by
          rcases headKeyOpt_btreeInsert hhk with h | h
          · subst h; exact hlt
          · simp [headKeyOpt] at h; subst h; exact h13)]
    · by_cases h13e : k1 = k3
      · subst h13e
        rw [btreeInsert_replace, btreeInsert_skip hlt' (Ne.symm hne),
          btreeInsert_skip hlt' (Ne.symm hne), btreeInsert_replace]
      · -- k3 precedes k1 (and hence k2)
        have h31 : keyLt k3 k1 = true := by
          rcases keyLt_of_ne (Ne.symm h13e) with h | h
          · exact h
          · exact absurd h h13
        have h32 : keyLt k3 k2 = true := keyLt_trans h31 hlt
        rw [btreeInsert_skip (by simpa using h13) h13e,
          btreeInsert_skip (keyLt_asymm h32) (fun he => keyLt_ne h32 he.symm),
          btreeInsert_skip (keyLt_asymm h32) (fun he => keyLt_ne h32 he.symm),
          btreeInsert_skip (by simpa using h13) h13e, ih]

theorem btreeInsert_comm (k1 k2 : List Char) (v1 v2 : FileTreeNode)
    (hne : k1 ≠ k2) (m : FileTreeMap) :
    btreeInsert k2 v2 (btreeInsert k1 v1 m) =
      btreeInsert k1 v1 (btreeInsert k2 v2 m) := by
  rcases keyLt_of_ne hne with h | h
  · exact btreeInsert_comm_lt k1 k2 v1 v2 h m
  · exact (btreeInsert_comm_lt k2 k1 v2 v1 h m).symm

theorem btreeFromList_perm {l l' : List (List Char × FileTreeNode)}
    (hp : l.Perm l') (hn : (l.map Prod.fst).Nodup) :
    btreeFromList l = btreeFromList l' := by
  refine hp.foldl_eq' (fun x hx y hy z => ?_) _
  by_cases hxy : x = y
  · subst hxy; rfl
  · have : x.1 ≠ y.1 := fun he =>
      hxy (List.inj_on_of_nodup_map hn hx hy he)
    exact btreeInsert_comm x.1 y.1 x.2 y.2 this z

theorem headKeyOpt_eq_head? (m : FileTreeMap) :
    (mapKeys m).head? = headKeyOpt m := by
  cases m <;> rfl

theorem keysAscending_cons {a : List Char} {r : List (List Char)} :
    keysAscending (a :: r) = true ↔
      (∀ b, r.head? = some b → keyLt a b = true) ∧ keysAscending r = true := by
  cases r with
  | nil => simp [keysAscending]
  | cons b r' => simp [keysAscending, Bool.and_eq_true]

theorem keysAscending_btreeInsert {k : List Char} {v : FileTreeNode} :
    ∀ {m : FileTreeMap}, keysAscending (mapKeys m) = true →
      keysAscending (mapKeys (btreeInsert k v m)) = true
  | .nil, _ => by simp [btreeInsert, mapKeys, keysAscending]
  | .cons k3 v3 rest, h => by
    by_cases h13 : keyLt k k3 = true
    · rw [btreeInsert_front h13]
      show keysAscending (k :: k3 :: mapKeys rest) = true
      rw [keysAscending_cons]
      refine ⟨fun b hb => ?_, h⟩
      simp at hb
      subst hb
      exact h13
    · by_cases h13e : k = k3
      · subst h13e
        rw [btreeInsert_replace]
        show keysAscending (k :: mapKeys rest) = true
        exact h
      · rw [btreeInsert_skip (by simpa using h13) h13e]
        show keysAscending (k3 :: mapKeys (btreeInsert k v rest)) = true
        have h3k : keyLt k3 k = true := by
          rcases keyLt_of_ne (Ne.symm h13e) with hx | hx
          · exact hx
          · exact absurd hx h13
        have hold : keysAscending (k3 :: mapKeys rest) = true := h
        rw [keysAscending_cons] at hold
        rw [keysAscending_cons]
        refine ⟨fun b hb => ?_, keysAscending_btreeInsert hold.2⟩
        rw [headKeyOpt_eq_head? (btreeInsert k v rest)] at hb
        rcases headKeyOpt_btreeInsert hb with hbk | hbk
        · subst hbk; exact h3k
        · exact hold.1 b (by rw [headKeyOpt_eq_head? rest]; exact hbk)

theorem keysAscending_btreeFromList (l : List (List Char × FileTreeNode)) :
    keysAscending (mapKeys (btreeFromList l)) = true := by
  suffices h : ∀ m, keysAscending (mapKeys m) = true →
      keysAscending (mapKeys (l.foldl (fun acc p => btreeInsert p.1 p.2 acc) m)) = true by
    exact h .nil rfl
  induction l with
  | nil => exact fun m hm => hm
  | cons p rest ih =>
    exact fun m hm => ih (btreeInsert p.1 p.2 m) (keysAscending_btreeInsert hm)

/-- C4: the children order of a File-Tree mapping is the ascending key order
of the sorted map, not insertion order: building the map from any
permutation of sibling entries (with distinct names) yields the same map,
its key sequence is strictly ascending, and the enumeration sequences of
the two builds coincide; enumeration is a pure function of the map, so
repeated enumeration is identical. -/
theorem c4_traversal_order_canonical
    (l l' : List (List Char × FileTreeNode)) (hp : l.Perm l')
    (hn : (l.map Prod.fst).Nodup) :
    btreeFromList l = btreeFromList l' ∧
    keysAscending (mapKeys (btreeFromList l)) = true ∧
    fileIter (btreeFromList l) = fileIter (btreeFromList l') := by
  have he := btreeFromList_perm hp hn
  exact ⟨he, keysAscending_btreeFromList l, congrArg fileIter he⟩

/-- Witness for C4: two insertion orders of the sibling files `a` and `b`. -/
theorem c4_traversal_order_canonical_witness :
    btreeFromList entriesAB = btreeFromList entriesBA ∧
    keysAscending (mapKeys (btreeFromList entriesAB)) = true ∧
    fileIter (btreeFromList entriesAB) = fileIter (btreeFromList entriesBA) :=
  c4_traversal_order_canonical entriesAB entriesBA (by decide) (by decide)

theorem fileIterFuel_length :
    ∀ (fuel : Nat) (stack : List (List (List Char) × FileTreeMap)),
      2 * stackWeight stack + stack.length < fuel →
      (fileIterFuel fuel stack).length = stackCount stack := by
  intro fuel
  induction fuel with
  | zero => intro stack h; omega
  | succ fuel ih =>
    intro stack h
    match stack with
    | [] => simp [fileIterFuel, stackCount]
    | (p, .nil) :: s =>
      have h1 : stackWeight ((p, FileTreeMap.nil) :: s) = 0 + stackWeight s := rfl
      have h2 : stackCount ((p, FileTreeMap.nil) :: s) = 0 + stackCount s := rfl
      have h3 : fileIterFuel (fuel + 1) ((p, FileTreeMap.nil) :: s) =
        fileIterFuel fuel s := rfl
      rw [h3, h2, ih s (by rw [h1] at h; simp only [List.length_cons] at h; omega)]
      omega
    | (p, .cons name (.file e) rest) :: s =>
      have h1 : stackWeight ((p, FileTreeMap.cons name (.file e) rest) :: s) =
        (1 + mapSize rest) + stackWeight s := rfl
      have h2 : stackCount ((p, FileTreeMap.cons name (.file e) rest) :: s) =
        (1 + mapFileCount rest) + stackCount s := rfl
      have h3 : fileIterFuel (fuel + 1) ((p, FileTreeMap.cons name (.file e) rest) :: s) =
        (p, e) :: fileIterFuel fuel ((p, rest) :: s) := rfl
      have h4 : stackWeight ((p, rest) :: s) = mapSize rest + stackWeight s := rfl
      have h5 : stackCount ((p, rest) :: s) = mapFileCount rest + stackCount s := rfl
      rw [h3, h2]
      simp only [List.length_cons]
      rw [ih ((p, rest) :: s) (by
        rw [h1] at h
        simp only [List.length_cons] at h ⊢
        rw [h4]
        omega)]
      rw [h5]
      omega
    | (p, .cons name (.directory inner) rest) :: s =>
      have h1 : stackWeight ((p, FileTreeMap.cons name (.directory inner) rest) :: s) =
        ((1 + mapSize inner) + mapSize rest) + stackWeight s := rfl
      have h2 : stackCount ((p, FileTreeMap.cons name (.directory inner) rest) :: s) =
        (mapFileCount inner + mapFileCount rest) + stackCount s := rfl
      have h3 : fileIterFuel (fuel + 1)
          ((p, FileTreeMap.cons name (.directory inner) rest) :: s) =
        fileIterFuel fuel ((p ++ [name], inner) :: (p, rest) :: s) := rfl
      have h4 : stackWeight ((p ++ [name], inner) :: (p, rest) :: s) =
        mapSize inner + (mapSize rest + stackWeight s) := rfl
      have h5 : stackCount ((p ++ [name], inner) :: (p, rest) :: s) =
        mapFileCount inner + (mapFileCount rest + stackCount s) := rfl
      rw [h3, h2, ih ((p ++ [name], inner) :: (p, rest) :: s) (by
        rw [h1] at h
        simp only [List.length_cons] at h ⊢
        rw [h4]
        omega)]
      rw [h5]
      omega

/-- C5: the number of elements the `v2.rs` iterator yields equals the leaf
count of the recursive `file_count`, for every file tree; and the count is
invariant under reordering sibling entries (with distinct names) during
construction of the map. -/
theorem c5_enumeration_count
    (m : FileTreeMap) (l l' : List (List Char × FileTreeNode)) :
    ((fileIter m).length = mapFileCount m) ∧
    (l.Perm l' → (l.map Prod.fst).Nodup →
      mapFileCount (btreeFromList l) = mapFileCount (btreeFromList l')) := by
  constructor
  · have := fileIterFuel_length (2 * mapSize m + 2) [([], m)] (by
      simp [stackWeight])
    rw [fileIter, this]
    simp [stackCount]
  · intro hp hn
    rw [btreeFromList_perm hp hn]

/-- Witness for C5: the one-leaf tree and the two sibling orders. -/
theorem c5_enumeration_count_witness :
    ((fileIter treeC3).length = mapFileCount treeC3) ∧
    mapFileCount (btreeFromList entriesAB) = mapFileCount (btreeFromList entriesBA) :=
  ⟨(c5_enumeration_count treeC3 entriesAB entriesBA).1,
   (c5_enumeration_count treeC3 entriesAB entriesBA).2 (by decide) (by decide)⟩

/-- C6: for a Flat-List `Single` document the uniform enumerator yields
exactly one element, whose path is the single segment equal to the base's
display name, whose length is the declared `length`, and whose per-file
hash is absent; its path agrees with the source `file_iter` of `v1.rs`. -/
theorem c6_flat_single_enumerate (base : TorrentInfoBase) (pieces : List Char)
    (len : Nat) (md5 : Option (List Char)) :
    v1Enumerate base ⟨pieces, .single len md5⟩ = [([base.name], len, none)] ∧
    (v1Enumerate base ⟨pieces, .single len md5⟩).map Prod.fst =
      v1FileIter ⟨pieces, .single len md5⟩ base.name :=
  ⟨rfl, rfl⟩

/-! ### Magnet query-pair fold lemmas -/

theorem option_some_or (a : α) (x : Option α) : (some a).or x = some a := rfl

theorem option_none_or (x : Option α) : Option.or none x = x := rfl

theorem getLast?_cons_or (a : α) (l : List α) :
    (a :: l).getLast? = l.getLast?.or (some a) := by
  induction l generalizing a with
  | nil => rfl
  | cons b l' ih =>
    rw [show (a :: b :: l').getLast? = (b :: l').getLast? from rfl, ih b]
    cases hl : l'.getLast? <;> simp [Option.or]

theorem isCapturingXt_false {p : List Char × List Char}
    (h : ¬(p.1 = xtKey ∧ urnBtih.isPrefixOf p.2 = true)) :
    isCapturingXt p = false := by
  by_cases hx : p.1 = xtKey
  · cases hpb : urnBtih.isPrefixOf p.2
    · simp [isCapturingXt, hpb]
    · exact absurd ⟨hx, hpb⟩ h
  · simp [isCapturingXt, hx]

theorem magnet_foldl_spec :
    ∀ (pairs : List (List Char × List Char)) (acc : MagnetAcc),
      ((pairs.foldl magnetStep acc).info_hash =
        (((pairs.filter isCapturingXt).map
          (fun p => trimStartMatches p.2 urnBtih)).getLast?).or acc.info_hash) ∧
      ((pairs.foldl magnetStep acc).display_name =
        (((pairs.filter isDnPair).map Prod.snd).getLast?).or acc.display_name) ∧
      ((pairs.foldl magnetStep acc).trackers =
        acc.trackers ++ (pairs.filter isTrPair).map Prod.snd) ∧
      ((pairs.foldl magnetStep acc).web_seeds =
        acc.web_seeds ++ (pairs.filter isWsPair).map Prod.snd) ∧
      ((pairs.foldl magnetStep acc).params =
        acc.params ++ pairs.filter (fun p => !(isRecognizedPair p))) := by
  intro pairs
  induction pairs with
  | nil => intro acc; simp
  | cons p rest ih =>
    intro acc
    have hstep : (p :: rest).foldl magnetStep acc =
      rest.foldl magnetStep (magnetStep acc p) := rfl
    obtain ⟨ih1, ih2, ih3, ih4, ih5⟩ := ih (magnetStep acc p)
    by_cases hc1 : p.1 = xtKey ∧ urnBtih.isPrefixOf p.2 = true
    · have hs : magnetStep acc p =
        { acc with info_hash := some (trimStartMatches p.2 urnBtih) } := by
        rw [magnetStep, if_pos hc1]
      have hb1 : isCapturingXt p = true := by
        simp [isCapturingXt, hc1.1, hc1.2]
      have hb2 : isDnPair p = false := by
        simp only [isDnPair, hc1.1]; decide
      have hb3 : isTrPair p = false := by
        simp only [isTrPair, hc1.1]; decide
      have hb4 : isWsPair p = false := by
        simp only [isWsPair, hc1.1]; decide
      have hb5 : isRecognizedPair p = true := by
        simp [isRecognizedPair, hb1]
      refine ⟨?_, ?_, ?_, ?_, ?_⟩
      · rw [hstep, ih1, hs]
        simp [List.filter_cons, hb1, getLast?_cons_or, Option.or_assoc,
          option_some_or]
      · rw [hstep, ih2, hs]
        simp [List.filter_cons, hb2]
      · rw [hstep, ih3, hs]
        simp [List.filter_cons, hb3]
      · rw [hstep, ih4, hs]
        simp [List.filter_cons, hb4]
      · rw [hstep, ih5, hs]
        simp [List.filter_cons, hb5]
    · have hb1 : isCapturingXt p = false := isCapturingXt_false hc1
      by_cases hc2 : p.1 = dnKey
      · have hs : magnetStep acc p = { acc with display_name := some p.2 } := by
          rw [magnetStep, if_neg hc1, if_pos hc2]
        have hb2 : isDnPair p = true := by simp [isDnPair, hc2]
        have hb3 : isTrPair p = false := by
          simp only [isTrPair, hc2]; decide
        have hb4 : isWsPair p = false := by
          simp only [isWsPair, hc2]; decide
        have hb5 : isRecognizedPair p = true := by
          simp [isRecognizedPair, isDnPair, hc2]
        refine ⟨?_, ?_, ?_, ?_, ?_⟩
        · rw [hstep, ih1, hs]
          simp [List.filter_cons, hb1]
        · rw [hstep, ih2, hs]
          simp [List.filter_cons, hb2, getLast?_cons_or, Option.or_assoc,
            option_some_or]
        · rw [hstep, ih3, hs]
          simp [List.filter_cons, hb3]
        · rw [hstep, ih4, hs]
          simp [List.filter_cons, hb4]
        · rw [hstep, ih5, hs]
          simp [List.filter_cons, hb5]
      · by_cases hc3 : p.1 = trKey
        · have hs : magnetStep acc p =
            { acc with trackers := acc.trackers ++ [p.2] } := by
            rw [magnetStep, if_neg hc1, if_neg hc2, if_pos hc3]
          have hb2 : isDnPair p = false := by simp [isDnPair, hc2]
          have hb3 : isTrPair p = true := by simp [isTrPair, hc3]
          have hb4 : isWsPair p = false := by
            simp only [isWsPair, hc3]; decide
          have hb5 : isRecognizedPair p = true := by
            simp [isRecognizedPair, isTrPair, hc3]
          refine ⟨?_, ?_, ?_, ?_, ?_⟩
          · rw [hstep, ih1, hs]
            simp [List.filter_cons, hb1]
          · rw [hstep, ih2, hs]
            simp [List.filter_cons, hb2]
          · rw [hstep, ih3, hs]
            simp [List.filter_cons, hb3]
          · rw [hstep, ih4, hs]
            simp [List.filter_cons, hb4]
          · rw [hstep, ih5, hs]
            simp [List.filter_cons, hb5]
        · by_cases hc4 : p.1 = wsKey
          · have hs : magnetStep acc p =
              { acc with web_seeds := acc.web_seeds ++ [p.2] } := by
              rw [magnetStep, if_neg hc1, if_neg hc2, if_neg hc3, if_pos hc4]
            have hb2 : isDnPair p = false := by simp [isDnPair, hc2]
            have hb3 : isTrPair p = false := by simp [isTrPair, hc3]
            have hb4 : isWsPair p = true := by simp [isWsPair, hc4]
            have hb5 : isRecognizedPair p = true := by
              simp [isRecognizedPair, isWsPair, hc4]
            refine ⟨?_, ?_, ?_, ?_, ?_⟩
            · rw [hstep, ih1, hs]
              simp [List.filter_cons, hb1]
            · rw [hstep, ih2, hs]
              simp [List.filter_cons, hb2]
            · rw [hstep, ih3, hs]
              simp [List.filter_cons, hb3]
            · rw [hstep, ih4, hs]
              simp [List.filter_cons, hb4]
            · rw [hstep, ih5, hs]
              simp [List.filter_cons, hb5]
          · have hs : magnetStep acc p =
              { acc with params := acc.params ++ [p] } := by
              rw [magnetStep, if_neg hc1, if_neg hc2, if_neg hc3, if_neg hc4]
            have hb2 : isDnPair p = false := by simp [isDnPair, hc2]
            have hb3 : isTrPair p = false := by simp [isTrPair, hc3]
            have hb4 : isWsPair p = false := by simp [isWsPair, hc4]
            have hb5 : isRecognizedPair p = false := by
              simp [isRecognizedPair, hb1, hb2, hb3, hb4]
            refine ⟨?_, ?_, ?_, ?_, ?_⟩
            · rw [hstep, ih1, hs]
              simp [List.filter_cons, hb1]
            · rw [hstep, ih2, hs]
              simp [List.filter_cons, hb2]
            · rw [hstep, ih3, hs]
              simp [List.filter_cons, hb3]
            · rw [hstep, ih4, hs]
              simp [List.filter_cons, hb4]
            · rw [hstep, ih5, hs]
              simp [List.filter_cons, hb5]

/-! ### `trim_start_matches` lemmas -/

theorem isPrefixOf_append_self : ∀ (p t : List Char), p.isPrefixOf (p ++ t) = true
  | [], _ => by simp [List.isPrefixOf]
  | a :: as, t => by simp [List.isPrefixOf, isPrefixOf_append_self as t]

theorem isPrefixOf_nil_false {p : List Char} (h : p ≠ []) :
    p.isPrefixOf [] = false := by
  cases p with
  | nil => exact absurd rfl h
  | cons a as => rfl

theorem isPrefixOf_length_le : ∀ {p s : List Char},
    p.isPrefixOf s = true → p.length ≤ s.length
  | [], _, _ => by simp
  | _ :: _, [], h => by cases h
  | a :: as, b :: bs, h => by
    simp only [List.isPrefixOf, Bool.and_eq_true] at h
    have := isPrefixOf_length_le h.2
    simp only [List.length_cons]
    omega

theorem trimAux_congr (pat : List Char) :
    ∀ (f1 f2 : Nat) (s : List Char), s.length ≤ f1 → s.length ≤ f2 →
      trimAux pat f1 s = trimAux pat f2 s := by
  intro f1
  induction f1 with
  | zero =>
    intro f2 s h1 _
    have hs : s = [] := List.length_eq_zero.mp (Nat.le_zero.mp h1)
    subst hs
    cases f2 with
    | zero => rfl
    | succ g =>
      by_cases hp : pat = []
      · simp [trimAux, hp]
      · simp [trimAux, isPrefixOf_nil_false hp]
  | succ f ih =>
    intro f2 s h1 h2
    by_cases hcond : pat ≠ [] ∧ pat.isPrefixOf s = true
    · have hp1 : 0 < pat.length := List.length_pos.mpr hcond.1
      have hps : pat.length ≤ s.length := isPrefixOf_length_le hcond.2
      cases f2 with
      | zero => omega
      | succ g =>
        simp only [trimAux, if_pos hcond]
        exact ih g (s.drop pat.length)
          (by simp only [List.length_drop]; omega)
          (by simp only [List.length_drop]; omega)
    · cases f2 with
      | zero =>
        have hs : s = [] := List.length_eq_zero.mp (Nat.le_zero.mp h2)
        subst hs
        simp only [trimAux, if_neg hcond]
      | succ g => simp only [trimAux, if_neg hcond]

theorem trim_not_prefixed {pat : List Char} (hp : pat ≠ []) (s : List Char) :
    pat.isPrefixOf (trimStartMatches s pat) = false := by
  suffices aux : ∀ fuel s, s.length ≤ fuel →
      pat.isPrefixOf (trimAux pat fuel s) = false from aux s.length s le_rfl
  intro fuel
  induction fuel with
  | zero =>
    intro s h
    have hs : s = [] := List.length_eq_zero.mp (Nat.le_zero.mp h)
    subst hs
    exact isPrefixOf_nil_false hp
  | succ f ih =>
    intro s h
    by_cases hcond : pat ≠ [] ∧ pat.isPrefixOf s = true
    · have hp1 : 0 < pat.length := List.length_pos.mpr hcond.1
      have hps : pat.length ≤ s.length := isPrefixOf_length_le hcond.2
      simp only [trimAux, if_pos hcond]
      exact ih (s.drop pat.length) (by simp only [List.length_drop]; omega)
    · simp only [trimAux, if_neg hcond]
      cases hpre : pat.isPrefixOf s
      · rfl
      · exact absurd ⟨hp, hpre⟩ hcond

theorem trim_append {pat : List Char} (hp : pat ≠ []) (t : List Char) :
    trimStartMatches (pat ++ t) pat = trimStartMatches t pat := by
  have hp1 : 0 < pat.length := List.length_pos.mpr hp
  have hlen : (pat ++ t).length = pat.length + t.length := List.length_append pat t
  obtain ⟨L, hL⟩ : ∃ L, (pat ++ t).length = L + 1 := ⟨(pat ++ t).length - 1, by omega⟩
  rw [trimStartMatches, hL]
  have hcond : pat ≠ [] ∧ pat.isPrefixOf (pat ++ t) = true :=
    ⟨hp, isPrefixOf_append_self pat t⟩
  simp only [trimAux, if_pos hcond]
  rw [List.drop_left]
  rw [trimStartMatches]
  exact trimAux_congr pat L t.length t (by omega) le_rfl

theorem trim_of_not_prefixed {pat s : List Char} (h : pat.isPrefixOf s = false) :
    trimStartMatches s pat = s := by
  rw [trimStartMatches]
  cases hsl : s.length with
  | zero => rfl
  | succ n =>
    simp only [trimAux]
    rw [if_neg]
    rintro ⟨-, hpre⟩
    rw [h] at hpre
    cases hpre

theorem mem_of_getLast?_eq {l : List α} {a : α} (h : l.getLast? = some a) :
    a ∈ l := by
  induction l with
  | nil => cases h
  | cons b l' ih =>
    rw [getLast?_cons_or] at h
    cases hl : l'.getLast? with
    | none =>
      rw [hl, option_none_or] at h
      injection h with h
      exact h ▸ List.mem_cons_self b l'
    | some c =>
      rw [hl, option_some_or] at h
      injection h with h
      exact List.mem_cons_of_mem b (ih (h ▸ hl))

/-- C7 counterexample: a parse accepted by the parser whose extra-parameter
list contains a pair with the recognized key `xt` (an `xt` value lacking the
`urn:btih:` prefix falls through to the catch-all arm). -/
theorem c7_counterexample :
    fromQueryPairs cexC7Pairs =
      .ok ⟨kAa.toList, none, [], [], [(xtKey, kNohash.toList)]⟩ ∧
    ((⟨kAa.toList, none, [], [], [(xtKey, kNohash.toList)]⟩ :
      MagnetLink).params.map Prod.fst) = [xtKey] :=
  ⟨by decide, by decide⟩

/-- C7 (amended): for every accepted query-pair list, `dn` sets the display
name with the last occurrence winning, `tr` and `ws` append in source order,
and exactly the pairs consumed by no recognized arm land in the extra list
in source order with duplicates kept; the extra list never contains a
`dn`/`tr`/`ws` key, and contains an `xt` pair exactly when that value lacks
the `urn:btih:` prefix. -/
theorem c7_query_pair_dispatch (pairs : List (List Char × List Char))
    (m : MagnetLink) (hm : fromQueryPairs pairs = .ok m) :
    m.display_name = ((pairs.filter isDnPair).map Prod.snd).getLast? ∧
    m.trackers = (pairs.filter isTrPair).map Prod.snd ∧
    m.web_seeds = (pairs.filter isWsPair).map Prod.snd ∧
    m.params = pairs.filter (fun p => !(isRecognizedPair p)) ∧
    (∀ p ∈ m.params, p.1 ≠ dnKey ∧ p.1 ≠ trKey ∧ p.1 ≠ wsKey ∧
      (p.1 = xtKey → urnBtih.isPrefixOf p.2 = false)) := by
  obtain ⟨h1, h2, h3, h4, h5⟩ := magnet_foldl_spec pairs magnetAccInit
  rcases hA : (pairs.foldl magnetStep magnetAccInit).info_hash with _ | ih
  · simp [fromQueryPairs, hA] at hm
  · simp only [fromQueryPairs, hA, Except.ok.injEq] at hm
    subst hm
    refine ⟨?_, ?_, ?_, ?_, ?_⟩
    · rw [show (MagnetLink.mk ih
        (pairs.foldl magnetStep magnetAccInit).display_name
        (pairs.foldl magnetStep magnetAccInit).trackers
        (pairs.foldl magnetStep magnetAccInit).web_seeds
        (pairs.foldl magnetStep magnetAccInit).params).display_name =
        (pairs.foldl magnetStep magnetAccInit).display_name from rfl, h2]
      simp [magnetAccInit]
    · rw [show (MagnetLink.mk ih
        (pairs.foldl magnetStep magnetAccInit).display_name
        (pairs.foldl magnetStep magnetAccInit).trackers
        (pairs.foldl magnetStep magnetAccInit).web_seeds
        (pairs.foldl magnetStep magnetAccInit).params).trackers =
        (pairs.foldl magnetStep magnetAccInit).trackers from rfl, h3]
      simp [magnetAccInit]
    · rw [show (MagnetLink.mk ih
        (pairs.foldl magnetStep magnetAccInit).display_name
        (pairs.foldl magnetStep magnetAccInit).trackers
        (pairs.foldl magnetStep magnetAccInit).web_seeds
        (pairs.foldl magnetStep magnetAccInit).params).web_seeds =
        (pairs.foldl magnetStep magnetAccInit).web_seeds from rfl, h4]
      simp [magnetAccInit]
    · rw [show (MagnetLink.mk ih
        (pairs.foldl magnetStep magnetAccInit).display_name
        (pairs.foldl magnetStep magnetAccInit).trackers
        (pairs.foldl magnetStep magnetAccInit).web_seeds
        (pairs.foldl magnetStep magnetAccInit).params).params =
        (pairs.foldl magnetStep magnetAccInit).params from rfl, h5]
      simp [magnetAccInit]
    · intro p hp
      have hp' : p ∈ pairs.filter (fun p => !(isRecognizedPair p)) := by
        have hpp : p ∈ (pairs.foldl magnetStep magnetAccInit).params := hp
        rw [h5] at hpp
        simpa [magnetAccInit] using hpp
      have hrec : isRecognizedPair p = false := by
        have := List.of_mem_filter hp'
        simpa using this
      have hcap : isCapturingXt p = false := by
        simp only [isRecognizedPair, Bool.or_eq_false_iff] at hrec
        exact hrec.1.1.1
      have hdn : isDnPair p = false := by
        simp only [isRecognizedPair, Bool.or_eq_false_iff] at hrec
        exact hrec.1.1.2
      have htr : isTrPair p = false := by
        simp only [isRecognizedPair, Bool.or_eq_false_iff] at hrec
        exact hrec.1.2
      have hws : isWsPair p = false := by
        simp only [isRecognizedPair, Bool.or_eq_false_iff] at hrec
        exact hrec.2
      refine ⟨?_, ?_, ?_, ?_⟩
      · simpa [isDnPair] using hdn
      · simpa [isTrPair] using htr
      · simpa [isWsPair] using hws
      · intro hx
        simp only [isCapturingXt, hx, Bool.and_eq_false_iff] at hcap
        rcases hcap with hl | hr
        · simp at hl
        · exact hr

/-- Witness for C7 (amended): the two-pair input whose first `xt` value
lacks the prefix. -/
theorem c7_query_pair_dispatch_witness :
    (⟨kAa.toList, none, [], [], [(xtKey, kNohash.toList)]⟩ :
      MagnetLink).display_name =
      ((cexC7Pairs.filter isDnPair).map Prod.snd).getLast? ∧
    (⟨kAa.toList, none, [], [], [(xtKey, kNohash.toList)]⟩ :
      MagnetLink).trackers = (cexC7Pairs.filter isTrPair).map Prod.snd ∧
    (⟨kAa.toList, none, [], [], [(xtKey, kNohash.toList)]⟩ :
      MagnetLink).web_seeds = (cexC7Pairs.filter isWsPair).map Prod.snd ∧
    (⟨kAa.toList, none, [], [], [(xtKey, kNohash.toList)]⟩ :
      MagnetLink).params = cexC7Pairs.filter (fun p => !(isRecognizedPair p)) ∧
    (∀ p ∈ (⟨kAa.toList, none, [], [], [(xtKey, kNohash.toList)]⟩ :
      MagnetLink).params, p.1 ≠ dnKey ∧ p.1 ≠ trKey ∧ p.1 ≠ wsKey ∧
      (p.1 = xtKey → urnBtih.isPrefixOf p.2 = false)) :=
  c7_query_pair_dispatch cexC7Pairs
    ⟨kAa.toList, none, [], [], [(xtKey, kNohash.toList)]⟩ (by decide)

/-- C8: the parse fails with `MissingInfoHash` exactly when no `xt` pair
with a `urn:btih:`-prefixed value occurs; on success the captured hash is
the last prefixed `xt` value with the prefix stripped (unprefixed `xt`
values neither error nor capture). -/
theorem c8_missing_info_hash_iff (pairs : List (List Char × List Char)) :
    (fromQueryPairs pairs = .error .missingInfoHash ↔
      pairs.filter isCapturingXt = []) ∧
    (∀ m, fromQueryPairs pairs = .ok m →
      some m.info_hash =
        ((pairs.filter isCapturingXt).map
          (fun p => trimStartMatches p.2 urnBtih)).getLast?) := by
  have hinfo := (magnet_foldl_spec pairs magnetAccInit).1
  rw [show magnetAccInit.info_hash = none from rfl, Option.or_none] at hinfo
  constructor
  · rcases hF : pairs.filter isCapturingXt with _ | ⟨q, F⟩
    · rw [hF] at hinfo
      simp only [List.map_nil, List.getLast?_nil] at hinfo
      simp [fromQueryPairs, hinfo]
    · rw [hF] at hinfo
      have hv : ∃ v, ((q :: F).map
          (fun p => trimStartMatches p.2 urnBtih)).getLast? = some v := by
        rw [List.map_cons, getLast?_cons_or]
        cases hgl : (F.map (fun p => trimStartMatches p.2 urnBtih)).getLast? with
        | none => exact ⟨_, rfl⟩
        | some c => exact ⟨c, rfl⟩
      obtain ⟨v, hv⟩ := hv
      rw [hv] at hinfo
      simp [fromQueryPairs, hinfo]
  · intro m hm
    rcases hA : (pairs.foldl magnetStep magnetAccInit).info_hash with _ | ih
    · simp [fromQueryPairs, hA] at hm
    · simp only [fromQueryPairs, hA, Except.ok.injEq] at hm
      subst hm
      rw [hA] at hinfo
      exact hinfo

/-- Witness for C8: the single-pair input with a prefixed `xt` value. -/
theorem c8_missing_info_hash_iff_witness :
    some ((⟨kAa.toList, none, [], [], []⟩ : MagnetLink).info_hash) =
      ((c8Pairs.filter isCapturingXt).map
        (fun p => trimStartMatches p.2 urnBtih)).getLast? :=
  (c8_missing_info_hash_iff c8Pairs).2 ⟨kAa.toList, none, [], [], []⟩ (by decide)

/-- C10: a successfully parsed info hash never begins with `urn:btih:`
(`trim_start_matches` strips every leading repetition), and a doubly
prefixed `xt` value `urn:btih:urn:btih:h` yields `h` when `h` itself lacks
the prefix. -/
theorem c10_prefix_fully_stripped (pairs : List (List Char × List Char))
    (m : MagnetLink) (h : List Char) (hm : fromQueryPairs pairs = .ok m)
    (hh : urnBtih.isPrefixOf h = false) :
    urnBtih.isPrefixOf m.info_hash = false ∧
    fromQueryPairs [(xtKey, urnBtih ++ (urnBtih ++ h))] =
      .ok ⟨h, none, [], [], []⟩ := by
  have hpne : urnBtih ≠ [] := by decide
  constructor
  · have hinfo := (magnet_foldl_spec pairs magnetAccInit).1
    rw [show magnetAccInit.info_hash = none from rfl, Option.or_none] at hinfo
    rcases hA : (pairs.foldl magnetStep magnetAccInit).info_hash with _ | ih
    · simp [fromQueryPairs, hA] at hm
    · simp only [fromQueryPairs, hA, Except.ok.injEq] at hm
      subst hm
      rw [hA] at hinfo
      have hmem : ih ∈ (pairs.filter isCapturingXt).map
          (fun p => trimStartMatches p.2 urnBtih) := mem_of_getLast?_eq hinfo.symm
      obtain ⟨q, _, hqe⟩ := List.mem_map.mp hmem
      show urnBtih.isPrefixOf ih = false
      rw [← hqe]
      exact trim_not_prefixed hpne q.2
  · have hcap : (xtKey, urnBtih ++ (urnBtih ++ h)).1 = xtKey ∧
        urnBtih.isPrefixOf (xtKey, urnBtih ++ (urnBtih ++ h)).2 = true :=
      ⟨rfl, isPrefixOf_append_self urnBtih (urnBtih ++ h)⟩
    have hfold : [(xtKey, urnBtih ++ (urnBtih ++ h))].foldl magnetStep
        magnetAccInit = magnetStep magnetAccInit
        (xtKey, urnBtih ++ (urnBtih ++ h)) := rfl
    have hstepv : magnetStep magnetAccInit (xtKey, urnBtih ++ (urnBtih ++ h)) =
        ⟨some (trimStartMatches (urnBtih ++ (urnBtih ++ h)) urnBtih),
          none, [], [], []⟩ := by
      rw [magnetStep, if_pos hcap]
      rfl
    have htrim : trimStartMatches (urnBtih ++ (urnBtih ++ h)) urnBtih = h := by
      rw [trim_append hpne, trim_append hpne, trim_of_not_prefixed hh]
    rw [fromQueryPairs, hfold, hstepv]
    simp [htrim]

/-- Witness for C10: a successful parse and the doubly prefixed value
`urn:btih:urn:btih:zz`. -/
theorem c10_prefix_fully_stripped_witness :
    urnBtih.isPrefixOf ((⟨kAa.toList, none, [], [], []⟩ :
      MagnetLink).info_hash) = false ∧
    fromQueryPairs [(xtKey, urnBtih ++ (urnBtih ++ kZz.toList))] =
      .ok ⟨kZz.toList, none, [], [], []⟩ :=
  c10_prefix_fully_stripped c8Pairs ⟨kAa.toList, none, [], [], []⟩ kZz.toList
    (by decide) (by decide)

/-! ### Hash normalization lemmas -/

theorem hexVal_hexDigit : ∀ d, d < 16 → hexVal (hexDigit d) = some d := by decide

theorem hexDigit_toLower : ∀ d, d < 16 → (hexDigit d).toLower = hexDigit d := by
  decide

theorem hexEncode_map_toLower :
    ∀ (bs : List Nat), (∀ b ∈ bs, b < 256) →
      (hexEncode bs).map Char.toLower = hexEncode bs := by
  intro bs
  induction bs with
  | nil => intro _; rfl
  | cons b rest ih =>
    intro hb
    have hhi : b / 16 < 16 := by
      have := hb b (List.mem_cons_self b rest)
      omega
    have hlo : b % 16 < 16 := by omega
    simp only [hexEncode, List.flatMap_cons, List.cons_append, List.nil_append,
      List.map_cons]
    rw [hexDigit_toLower _ hhi, hexDigit_toLower _ hlo]
    have := ih (fun x hx => hb x (List.mem_cons_of_mem b hx))
    simp only [hexEncode] at this
    rw [this]

theorem hexEncode_length (bs : List Nat) :
    (hexEncode bs).length = 2 * bs.length := by
  induction bs with
  | nil => rfl
  | cons b rest ih =>
    simp only [hexEncode, List.flatMap_cons, List.cons_append, List.nil_append,
      List.length_cons] at ih ⊢
    omega

theorem hexDecode_hexEncode :
    ∀ (bs : List Nat), (∀ b ∈ bs, b < 256) →
      hexDecode (hexEncode bs) = some bs := by
  intro bs
  induction bs with
  | nil => intro _; rfl
  | cons b rest ih =>
    intro hb
    have hhi : b / 16 < 16 := by
      have := hb b (List.mem_cons_self b rest)
      omega
    have hlo : b % 16 < 16 := by omega
    have harith : b / 16 * 16 + b % 16 = b := by omega
    simp only [hexEncode, List.flatMap_cons, List.cons_append, List.nil_append]
    simp only [hexDecode, hexVal_hexDigit _ hhi, hexVal_hexDigit _ hlo,
      Option.bind_eq_bind, Option.some_bind]
    have := ih (fun x hx => hb x (List.mem_cons_of_mem b hx))
    simp only [hexEncode] at this
    rw [this]
    simp [harith]

theorem b32Bits_bitsToNat :
    ∀ (a b c d e : Bool), b32Bits (bitsToNat [a, b, c, d, e]) = [a, b, c, d, e] ∧
      bitsToNat [a, b, c, d, e] < 32 := by decide

set_option maxRecDepth 16384 in
theorem bitsToNat_byteBits : ∀ b, b < 256 → bitsToNat (byteBits b) = b := by decide

theorem b32Val_roundtrip : ∀ d, d < 32 →
    b32Val ((b32Char d).toLower.toUpper) = some d := by decide

theorem flatMap_byteBits_length (bs : List Nat) :
    (bs.flatMap byteBits).length = 8 * bs.length := by
  induction bs with
  | nil => rfl
  | cons b rest ih =>
    simp only [List.flatMap_cons, List.length_append, ih, byteBits,
      List.length_cons, List.length_nil]
    omega

theorem flatMap_b32Bits_length (ds : List Nat) :
    (ds.flatMap b32Bits).length = 5 * ds.length := by
  induction ds with
  | nil => rfl
  | cons d rest ih =>
    simp only [List.flatMap_cons, List.length_append, ih, b32Bits,
      List.length_cons, List.length_nil]
    omega

theorem bitsToB32Digits_spec :
    ∀ (n : Nat) (l : List Bool), l.length ≤ n → 5 ∣ l.length →
      (bitsToB32Digits l).flatMap b32Bits = l ∧
      (∀ d ∈ bitsToB32Digits l, d < 32) := by
  intro n
  induction n with
  | zero =>
    intro l hn _
    have : l = [] := List.length_eq_zero.mp (Nat.le_zero.mp hn)
    subst this
    exact ⟨rfl, by intro d hd; cases hd⟩
  | succ n ih =>
    intro l hn hdvd
    rcases l with _ | ⟨a, l1⟩
    · exact ⟨rfl, by intro d hd; cases hd⟩
    rcases l1 with _ | ⟨b, l2⟩
    · exfalso; simp only [List.length_cons, List.length_nil] at hdvd; omega
    rcases l2 with _ | ⟨c, l3⟩
    · exfalso; simp only [List.length_cons, List.length_nil] at hdvd; omega
    rcases l3 with _ | ⟨d, l4⟩
    · exfalso; simp only [List.length_cons, List.length_nil] at hdvd; omega
    rcases l4 with _ | ⟨e, rest⟩
    · exfalso; simp only [List.length_cons, List.length_nil] at hdvd; omega
    have hrl : rest.length ≤ n := by
      simp only [List.length_cons] at hn
      omega
    have hrd : 5 ∣ rest.length := by
      simp only [List.length_cons] at hdvd ⊢
      omega
    obtain ⟨ihe, ihlt⟩ := ih rest hrl hrd
    have heq : bitsToB32Digits (a :: b :: c :: d :: e :: rest) =
      bitsToNat [a, b, c, d, e] :: bitsToB32Digits rest := rfl
    obtain ⟨h5, hlt5⟩ := b32Bits_bitsToNat a b c d e
    constructor
    · rw [heq]
      simp only [List.flatMap_cons, h5, ihe]
      rfl
    · intro x hx
      rw [heq] at hx
      rcases List.mem_cons.mp hx with hx | hx
      · rw [hx]; exact hlt5
      · exact ihlt x hx

theorem bitsToBytes_flatMap_byteBits :
    ∀ (bs : List Nat), (∀ b ∈ bs, b < 256) →
      bitsToBytes (bs.flatMap byteBits) = bs := by
  intro bs
  induction bs with
  | nil => intro _; rfl
  | cons b rest ih =>
    intro hb
    have hblt : b < 256 := hb b (List.mem_cons_self b rest)
    simp only [List.flatMap_cons, byteBits, List.cons_append, List.nil_append]
    rw [show bitsToBytes (b.testBit 7 :: b.testBit 6 :: b.testBit 5 ::
      b.testBit 4 :: b.testBit 3 :: b.testBit 2 :: b.testBit 1 :: b.testBit 0 ::
      rest.flatMap byteBits) = bitsToNat [b.testBit 7, b.testBit 6, b.testBit 5,
      b.testBit 4, b.testBit 3, b.testBit 2, b.testBit 1, b.testBit 0] ::
      bitsToBytes (rest.flatMap byteBits) from rfl]
    rw [show bitsToNat [b.testBit 7, b.testBit 6, b.testBit 5, b.testBit 4,
      b.testBit 3, b.testBit 2, b.testBit 1, b.testBit 0] =
      bitsToNat (byteBits b) from rfl]
    rw [bitsToNat_byteBits b hblt,
      ih (fun x hx => hb x (List.mem_cons_of_mem b hx))]

theorem b32_charmap_roundtrip :
    ∀ (ds : List Nat), (∀ d ∈ ds, d < 32) →
      ((ds.map b32Char).map Char.toLower).mapM (fun c => b32Val c.toUpper) =
        some ds := by
  intro ds
  induction ds with
  | nil => intro _; rfl
  | cons d rest ih =>
    intro hd
    have hdlt : d < 32 := hd d (List.mem_cons_self d rest)
    simp only [List.map_cons, List.mapM_cons]
    rw [show ((b32Char d).toLower).toUpper = (b32Char d).toLower.toUpper from rfl]
    rw [b32Val_roundtrip d hdlt, ih (fun x hx => hd x (List.mem_cons_of_mem d hx))]
    rfl

/-- C9: `hash_bytes` is a left inverse of both 20-byte text encodings: the
40-character lowercase hexadecimal form and the 32-character unpadded
RFC 4648 base-32 form both normalize back to the original bytes. -/
theorem c9_hash_bytes_left_inverse (bs : List Nat) (hlen : bs.length = 20)
    (hb : ∀ b ∈ bs, b < 256) :
    hashBytes (hexEncode bs) = .ok bs ∧ hashBytes (b32Encode bs) = .ok bs := by
  constructor
  · have h1 := hexEncode_map_toLower bs hb
    have h3 := hexDecode_hexEncode bs hb
    simp [hashBytes, h1, h3, hexEncode_length, hlen]
  · obtain ⟨hflat, hlt⟩ := bitsToB32Digits_spec (bs.flatMap byteBits).length
      (bs.flatMap byteBits) le_rfl
      (by rw [flatMap_byteBits_length, hlen]; omega)
    have hdiglen : (bitsToB32Digits (bs.flatMap byteBits)).length = 32 := by
      have h160 : (bs.flatMap byteBits).length = 160 := by
        rw [flatMap_byteBits_length, hlen]
      have := flatMap_b32Bits_length (bitsToB32Digits (bs.flatMap byteBits))
      rw [hflat, h160] at this
      omega
    have hdec : b32Decode ((b32Encode bs).map Char.toLower) = some bs := by
      rw [b32Encode]
      simp only [b32Decode]
      rw [b32_charmap_roundtrip _ hlt]
      simp only [Option.bind_eq_bind, Option.some_bind, hflat]
      rw [bitsToBytes_flatMap_byteBits bs hb]
      rfl
    have hlen32 : ((b32Encode bs).map Char.toLower).length = 32 := by
      simp [b32Encode, hdiglen]
    simp [hashBytes, hlen32, hdec, hlen]

/-- Witness for C9: the zero 20-byte value round-trips through both
encodings. -/
theorem c9_hash_bytes_left_inverse_witness :
    hashBytes (hexEncode bytesC9) = .ok bytesC9 ∧
    hashBytes (b32Encode bytesC9) = .ok bytesC9 :=
  c9_hash_bytes_left_inverse bytesC9 (by decide) (by decide)
